import Mathlib

/-!
Verification development for the quad-edge topology core
(`planar/triangulate/delaunay/quadedge/topo.go`) and the bounding-box
utility of the `geom` repository.

The mesh is embedded as an arena of edge slots: every directed edge is a
natural-number index, a quad-edge group occupies four consecutive indices
`4k, 4k+1, 4k+2, 4k+3`, and the mutable state is the `next` table (the
counter-clockwise successor around the origin) together with the optional
origin point of every slot.  Mutating Go code becomes explicit state
passing on this `Mesh` type.  Points are rational pairs.
-/

/-- A 2D vertex point (the external `geom.Point`), with exact rational
coordinates standing for the float coordinates of the source. -/
abbrev Point := ℚ × ℚ

/-- The mesh state: `n` is the allocation bound (a multiple of 4; slots
`≥ n` are untouched self-loops), `next` is the per-edge counter-clockwise
successor around the origin, and `orig` the optional origin point. -/
structure Mesh where
  n : Nat
  next : Nat → Nat
  orig : Nat → Option Point

/-- Modelled from the spec: the 90°-rotation (dual edge) of an edge is the
next slot within its quad-edge group of four, `rotate = (index + 1) mod 4`
within the group (spec §9, "Four-way rotational symmetry"). -/
def rot (e : Nat) : Nat := 4 * (e / 4) + (e + 1) % 4

/-- Modelled from the spec: the symmetric (reverse) edge is
`(index + 2) mod 4` within the group (spec §9). -/
def sym (e : Nat) : Nat := 4 * (e / 4) + (e + 2) % 4

/-- Modelled from the spec: the inverse rotation (270°-rotation,
`Rot` applied three times), `(index + 3) mod 4` within the group. -/
def invRot (e : Nat) : Nat := 4 * (e / 4) + (e + 3) % 4

/-- Modelled from the spec: `ONext`, the next counter-clockwise edge
around the origin, is the stored `next` reference of the edge (spec §3). -/
def onext (m : Mesh) (e : Nat) : Nat := m.next e

/-- Modelled from the spec: `OPrev`, the clockwise-previous edge around
the origin, is derived as rotate, take next, rotate (spec §3: derived via
the rotation relationship; this is the composition that is inverse to
`onext` on well-formed groups, see `onext_oprev`). -/
def oprev (m : Mesh) (e : Nat) : Nat := rot (m.next (rot e))

/-- Modelled from the spec: `LNext`, the counter-clockwise next edge
around the left face, derived via one rotation plus an origin-ring step
(spec §3): inverse-rotate, take next, rotate. -/
def lnext (m : Mesh) (e : Nat) : Nat := rot (m.next (invRot e))

/-- Modelled from the spec: the destination of an edge is the origin of
its symmetric edge; it is never stored, only derived (spec §3, inv. 4). -/
def dest (m : Mesh) (e : Nat) : Option Point := m.orig (sym e)

/-- One pointer write `e.next = v` of the source, as a state update. -/
def writeNext (m : Mesh) (e v : Nat) : Mesh :=
  { m with next := fun z => if z = e then v else m.next z }

/-- Modelled from the spec: endpoint assignment (`Edge.EndPoints`) sets
the origin of the edge and, atomically, the origin of its symmetric edge
(spec §4.1). -/
def setEndPoints (e : Nat) (o d : Option Point) (m : Mesh) : Mesh :=
  { m with orig := fun z => if z = sym e then d else if z = e then o else m.orig z }

/-- `Splice` of `topo.go`: a `nil` argument is a no-op; otherwise compute
`alpha = a.ONext().Rot()`, `beta = b.ONext().Rot()`, read the four
successors `t1..t4` before any write, then perform the four writes in the
order of the source. -/
def Splice : Option Nat → Option Nat → Mesh → Mesh
  | some a, some b, m =>
    let alpha := rot (m.next a)
    let beta := rot (m.next b)
    let t1 := m.next b
    let t2 := m.next a
    let t3 := m.next beta
    let t4 := m.next alpha
    writeNext (writeNext (writeNext (writeNext m a t1) b t2) alpha t3) beta t4
  | _, _, m => m

/-- Modelled from the spec: the winding order supplied by the external
winding-order provider (clockwise or counter-clockwise as the canonical
positive rotational sense, spec §6). -/
inductive Winding where
  | clockwise
  | counterClockwise

/-- Modelled from the spec: `ResolveEdge` of the winding-order provider is
not in the excerpt; per spec §6 it selects the edge or its symmetric form
whose origin matches the target point (the disambiguation beyond this is a
defined-precondition, spec §9); failure yields no edge. -/
def ResolveEdge (_ord : Winding) (m : Mesh) (b : Nat) (target : Option Point) : Option Nat :=
  if m.orig b = target then some b
  else if m.orig (sym b) = target then some (sym b)
  else none

/-- Modelled from the spec: `NewWithEndPoints` builds a fresh quad-edge
group of four slots with the given endpoints (spec §3 lifecycle, §9): the
new primal edge and its reverse are isolated one-edge origin rings, and
the two dual slots form the two-element face ring of an isolated edge, as
forced by invariants 1–5. -/
def allocQuad (o d : Option Point) (m : Mesh) : Mesh :=
  { n := m.n + 4
    next := fun z =>
      if z = m.n then m.n
      else if z = m.n + 1 then m.n + 3
      else if z = m.n + 2 then m.n + 2
      else if z = m.n + 3 then m.n + 1
      else m.next z
    orig := fun z =>
      if z = m.n then o
      else if z = m.n + 2 then d
      else m.orig z }

/-- `Connect` of `topo.go`: a `nil` argument returns no edge and leaves
the mesh unchanged; otherwise resolve `bb`, create the new edge `e` with
endpoints `(a.Dest(), bb.Orig())`, then `Splice(e, a.LNext())` and
`Splice(e.Sym(), bb)`.  The debug-only tracing of the source is elided.
A failed resolution (the spec §9 open precondition) yields no edge. -/
def Connect : Option Nat → Option Nat → Winding → Mesh → Option Nat × Mesh
  | some a, some b, ord, m =>
    match ResolveEdge ord m b (dest m a) with
    | none => (none, m)
    | some bb =>
      let e := m.n
      let m1 := allocQuad (dest m a) (m.orig bb) m
      let m2 := Splice (some e) (some (lnext m1 a)) m1
      let m3 := Splice (some (sym e)) (some bb) m2
      (some e, m3)
  | _, _, _, m => (none, m)

/-- `Swap` of `topo.go`: `a = e.OPrev()`, `b = e.Sym().OPrev()`, four
splices (the later two on the then-current state, as the method calls in
the source are evaluated at call time), then the endpoint reassignment
`e.EndPoints(a.Dest(), b.Dest())`. -/
def Swap (e : Nat) (m : Mesh) : Mesh :=
  let a := oprev m e
  let b := oprev m (sym e)
  let m1 := Splice (some e) (some a) m
  let m2 := Splice (some (sym e)) (some b) m1
  let m3 := Splice (some e) (some (lnext m2 a)) m2
  let m4 := Splice (some (sym e)) (some (lnext m3 b)) m3
  setEndPoints e (m4.orig (sym a)) (m4.orig (sym b)) m4

/-- `Swap` as called through a nullable edge reference: the source has no
`nil` guard, so a null argument immediately dereferences the null pointer
inside `e.OPrev()`; that fatal branch is embedded as `none`. -/
def SwapChecked : Option Nat → Mesh → Option Mesh
  | some e, m => some (Swap e m)
  | none, _ => none

/-- `Delete` of `topo.go`: a `nil` edge is a no-op; otherwise
`Splice(e, e.OPrev())` then `Splice(sym, sym.OPrev())`, the second
`OPrev` evaluated on the state after the first splice. -/
def Delete : Option Nat → Mesh → Mesh
  | none, m => m
  | some e, m =>
    let m1 := Splice (some e) (some (oprev m e)) m
    Splice (some (sym e)) (some (oprev m1 (sym e))) m1

/-- Modelled from the spec: vector subtraction of the external point type
(spec §6). -/
def subP (u v : Point) : Point := (u.1 - v.1, u.2 - v.2)

/-- Modelled from the spec: the cross product of the external point type
(spec §6). -/
def crossP (u v : Point) : ℚ := u.1 * v.2 - u.2 * v.1

/-- Modelled from the spec: the fixed epsilon tolerance of the external
float comparison `cmp.Float` (spec §4.6: an explicit configuration
constant; its exact value is immaterial to the claims proved below). -/
def EPSILON : ℚ := 1 / 1000000

/-- The sign function of `topo.go`: 0 when `f` is within the fixed epsilon
tolerance of 0 (the external `cmp.Float(f, 0.0)`, modelled from the spec),
else −1 or +1 matching the sign of `f` (`math.Signbit`). -/
def sign (f : ℚ) : ℚ :=
  if |f| ≤ EPSILON then 0
  else if f < 0 then -1
  else 1

/-- `RightOf` of `topo.go`: false when either endpoint is unset, else the
sign of the cross product of `(x − org)` and `(dst − org)` compared with
`mul` (`1`, or `−1` under `yflip`). -/
def RightOf (yflip : Bool) (x : Point) (m : Mesh) (e : Nat) : Bool :=
  let mul : ℚ := if yflip then -1 else 1
  match m.orig e with
  | none => false
  | some org =>
    match m.orig (sym e) with
    | none => false
    | some dst => decide (sign (crossP (subP x org) (subP dst org)) = mul)

/-- Modelled from the spec: the external segment-membership test
`planar.IsPointOnLineSegment` (spec §6): membership in the closed segment,
computed as collinearity plus coordinate-wise betweenness. -/
def isPointOnLineSegment (x p q : Point) : Bool :=
  decide ((x.1 - p.1) * (q.2 - p.2) = (x.2 - p.2) * (q.1 - p.1)) &&
  decide (min p.1 q.1 ≤ x.1) && decide (x.1 ≤ max p.1 q.1) &&
  decide (min p.2 q.2 ≤ x.2) && decide (x.2 ≤ max p.2 q.2)

/-- The closed line segment from `p` to `q`, stated parametrically; this
is the spec's phrase "lies on the closed line segment" taken literally,
used to check the delegated membership test against the spec's words. -/
def onClosedSegment (x p q : Point) : Prop :=
  ∃ t : ℚ, 0 ≤ t ∧ t ≤ 1 ∧
    x.1 = p.1 + t * (q.1 - p.1) ∧ x.2 = p.2 + t * (q.2 - p.2)

/-- `OnEdge` of `topo.go`: false when either endpoint is unset, else the
delegated segment-membership test on the segment from origin to
destination. -/
def OnEdge (x : Point) (m : Mesh) (e : Nat) : Bool :=
  match m.orig e with
  | none => false
  | some org =>
    match m.orig (sym e) with
    | none => false
    | some dst => isPointOnLineSegment x org dst

/-- The `BoundingBox` array of the `util` package: indices 0..3 are
minX, minY, maxX, maxY. -/
structure BoundingBox where
  b0 : ℚ
  b1 : ℚ
  b2 : ℚ
  b3 : ℚ
deriving DecidableEq, Repr

/-- The first `switch` of the `BBox` loop body: widen the x-range (first
matching case only, as in Go). -/
def bboxStepX (bb : BoundingBox) (x : ℚ) : BoundingBox :=
  if x < bb.b0 then { bb with b0 := x }
  else if bb.b2 < x then { bb with b2 := x }
  else bb

/-- The second `switch` of the `BBox` loop body: widen the y-range. -/
def bboxStepY (bb : BoundingBox) (y : ℚ) : BoundingBox :=
  if y < bb.b1 then { bb with b1 := y }
  else if bb.b3 < y then { bb with b3 := y }
  else bb

/-- One iteration of the `BBox` loop body for `i > 0`: the two `switch`
statements of the source in order. -/
def bboxStep (bb : BoundingBox) (xy : ℚ × ℚ) : BoundingBox :=
  bboxStepY (bboxStepX bb xy.1) xy.2

/-- `BBox` of the `util` package: the zero array for no points; otherwise
the first point seeds both corners (the `i == 0` branch) and the remaining
points are folded left-to-right through the loop body. -/
def BBox (points : List (ℚ × ℚ)) : BoundingBox :=
  match points with
  | [] => ⟨0, 0, 0, 0⟩
  | p :: rest => rest.foldl bboxStep ⟨p.1, p.2, p.1, p.2⟩

/-- Association-table successor function used to build concrete meshes:
slots not in the table are self-loops. -/
def mkNext (t : List (Nat × Nat)) : Nat → Nat :=
  fun e => ((t.find? (fun p => p.1 == e)).map Prod.snd).getD e

/-- Association-table origin function used to build concrete meshes. -/
def mkOrig (t : List (Nat × Point)) : Nat → Option Point :=
  fun e => (t.find? (fun p => p.1 == e)).map Prod.snd

/-- Well-formedness of a mesh: the allocation bound is a multiple of 4,
`next` maps allocated slots to allocated slots, is the identity beyond the
bound, is injective on the allocated slots, and preserves the primal/dual
layer (the parity of the slot index): origin rings of primal edges and
face rings of dual edges never mix. -/
def wf (m : Mesh) : Prop :=
  m.n % 4 = 0 ∧
  (∀ e, e < m.n → m.next e < m.n) ∧
  (∀ e, m.n ≤ e → m.next e = e) ∧
  (∀ e, e < m.n → ∀ f, f < m.n → m.next e = m.next f → e = f) ∧
  (∀ e, e < m.n → m.next e % 2 = e % 2)

/-- The quad-edge consistency invariant of the Guibas–Stolfi edge algebra
on allocated slots: `rot ∘ next` is an involution; it holds of freshly
allocated groups and is the structural relation between the origin rings
and the dual (face) rings. -/
def qwf (m : Mesh) : Prop :=
  ∀ e, e < m.n → rot (m.next (rot (m.next e))) = e

/-- Edges `a` and `b` lie in the same (origin) ring: `b` is reachable from
`a` along `next`. -/
def sameRing (m : Mesh) (a b : Nat) : Prop :=
  ∃ k, m.next^[k] a = b

/-- The ring through `e` is a closed finite cycle returning to `e`. -/
def ringClosed (m : Mesh) (e : Nat) : Prop :=
  ∃ k, 0 < k ∧ m.next^[k] e = e

/-- `k` is the size of the ring through `e`: walking `next` returns to `e`
after exactly `k` steps and no earlier. -/
def isRingSize (m : Mesh) (e k : Nat) : Prop :=
  0 < k ∧ m.next^[k] e = e ∧ ∀ j, 0 < j → j < k → m.next^[j] e ≠ e

/-- The four-way successor exchange performed by `Splice(a, b)`, as a
relabeling of slots: `a ↔ b` and `alpha ↔ beta`. -/
def tauFun (m : Mesh) (a b z : Nat) : Nat :=
  if z = a then b
  else if z = b then a
  else if z = rot (m.next a) then rot (m.next b)
  else if z = rot (m.next b) then rot (m.next a)
  else z

/-- Executable check of the bounded components of `wf`. -/
def wfB (m : Mesh) : Bool :=
  decide (m.n % 4 = 0) &&
  (List.range m.n).all (fun e =>
    decide (m.next e < m.n) && decide (m.next e % 2 = e % 2)) &&
  (List.range m.n).all (fun e => (List.range m.n).all (fun f =>
    !(m.next e == m.next f) || (e == f)))

/-- Executable check of `qwf`. -/
def qwfB (m : Mesh) : Bool :=
  (List.range m.n).all (fun e => rot (m.next (rot (m.next e))) == e)

/-- A mesh holding two freshly created, unconnected edges: edge 0 from
(0,0) to (1,0) in slots 0–3 and edge 4 from (1,0) to (2,0) in slots
4–7. -/
def pairMesh : Mesh :=
  { n := 8
    next := mkNext [(1, 3), (3, 1), (5, 7), (7, 5)]
    orig := mkOrig [(0, ((0 : ℚ), (0 : ℚ))), (2, ((1 : ℚ), (0 : ℚ))),
                    (4, ((1 : ℚ), (0 : ℚ))), (6, ((2 : ℚ), (0 : ℚ)))] }

/-- A mesh holding one edge from (0,0) to (10,0), the scenario edge of the
predicate claims. -/
def segMesh : Mesh :=
  { n := 4
    next := mkNext [(1, 3), (3, 1)]
    orig := mkOrig [(0, ((0 : ℚ), (0 : ℚ))), (2, ((10 : ℚ), (0 : ℚ)))] }

/-- The canonical quadrilateral with two triangular faces: vertices
`P Q R S` in cyclic order, the interior diagonal from `P` to `R` being
edge 0 (slots 0–3), and the four boundary edges `P→Q` (slots 4–7),
`Q→R` (8–11), `R→S` (12–15) and `S→P` (16–19).  The `next` table lists
the counter-clockwise origin rings at the four vertices and the induced
dual (face) rings: the two triangles `P Q R`, `P R S` and the outer
face. -/
def quadMesh (P Q R S : Point) : Mesh :=
  { n := 20
    next := mkNext [(0, 18), (2, 10), (4, 0), (6, 8), (8, 6), (10, 12), (12, 2),
                    (14, 16), (16, 14), (18, 4),
                    (1, 7), (3, 15), (5, 17), (7, 11), (9, 5), (11, 1), (13, 9),
                    (15, 19), (17, 13), (19, 3)]
    orig := mkOrig [(0, P), (2, R), (4, P), (6, Q), (8, Q), (10, R), (12, R),
                    (14, S), (16, S), (18, P)] }

/-! ## Basic facts about the group arithmetic of `rot`, `sym`, `invRot` -/

theorem rot_lt {n e : Nat} (h4 : n % 4 = 0) (h : e < n) : rot e < n := by
  unfold rot; omega

theorem sym_lt {n e : Nat} (h4 : n % 4 = 0) (h : e < n) : sym e < n := by
  unfold sym; omega

theorem invRot_lt {n e : Nat} (h4 : n % 4 = 0) (h : e < n) : invRot e < n := by
  unfold invRot; omega

theorem rot_mod_two (e : Nat) : rot e % 2 = (e + 1) % 2 := by
  unfold rot; omega

theorem sym_mod_two (e : Nat) : sym e % 2 = e % 2 := by
  unfold sym; omega

theorem invRot_mod_two (e : Nat) : invRot e % 2 = (e + 1) % 2 := by
  unfold invRot; omega

theorem rot_invRot (e : Nat) : rot (invRot e) = e := by
  unfold rot invRot; omega

theorem invRot_rot (e : Nat) : invRot (rot e) = e := by
  unfold rot invRot; omega

theorem sym_sym (e : Nat) : sym (sym e) = e := by
  unfold sym; omega

theorem rot_rot (e : Nat) : rot (rot e) = sym e := by
  unfold rot sym; omega

theorem rot_sym (e : Nat) : rot (sym e) = invRot e := by
  unfold rot sym invRot; omega

theorem sym_ne (e : Nat) : sym e ≠ e := by
  unfold sym; omega

theorem rot_injective {x y : Nat} (h : rot x = rot y) : x = y := by
  unfold rot at h; omega

/-! ## Pointwise descriptions of the operations -/

theorem splice_n (a b : Nat) (m : Mesh) : (Splice (some a) (some b) m).n = m.n := rfl

theorem splice_orig (a b : Nat) (m : Mesh) :
    (Splice (some a) (some b) m).orig = m.orig := rfl

theorem splice_next (a b : Nat) (m : Mesh) (z : Nat) :
    (Splice (some a) (some b) m).next z =
      if z = rot (m.next b) then m.next (rot (m.next a))
      else if z = rot (m.next a) then m.next (rot (m.next b))
      else if z = b then m.next a
      else if z = a then m.next b
      else m.next z := rfl

theorem swapChecked_some (e : Nat) (m : Mesh) :
    SwapChecked (some e) m = some (Swap e m) := rfl

/-- The pointwise successor table after `Splice(a, b)` is the old table
precomposed with the `a ↔ b`, `alpha ↔ beta` exchange, provided the two
pairs do not alias each other (they never do across distinct layers). -/
theorem splice_next_tau (m : Mesh) (a b : Nat)
    (h1 : a ≠ rot (m.next a)) (h2 : a ≠ rot (m.next b))
    (h3 : b ≠ rot (m.next a)) (h4 : b ≠ rot (m.next b)) (z : Nat) :
    (Splice (some a) (some b) m).next z = m.next (tauFun m a b z) := by
  rw [splice_next]; unfold tauFun
  split_ifs <;> cc

theorem tauFun_invol (m : Mesh) (a b : Nat)
    (h1 : a ≠ rot (m.next a)) (h2 : a ≠ rot (m.next b))
    (h3 : b ≠ rot (m.next a)) (h4 : b ≠ rot (m.next b)) (z : Nat) :
    tauFun m a b (tauFun m a b z) = z := by
  unfold tauFun
  split_ifs <;> cc

/-- `wf` extends its layer-preservation component to all slots. -/
theorem wf_parity_all {m : Mesh} (hwf : wf m) (e : Nat) :
    m.next e % 2 = e % 2 := by
  by_cases h : e < m.n
  · exact hwf.2.2.2.2 e h
  · rw [hwf.2.2.1 e (Nat.le_of_not_lt h)]

/-- Layer preservation makes the four slots touched by a splice pairwise
distinct across the two pairs. -/
theorem splice_no_alias {m : Mesh} (hwf : wf m) {a b : Nat} (hab : a % 2 = b % 2) :
    a ≠ rot (m.next a) ∧ a ≠ rot (m.next b) ∧
    b ≠ rot (m.next a) ∧ b ≠ rot (m.next b) := by
  have pa := wf_parity_all hwf a
  have pb := wf_parity_all hwf b
  have r1 := rot_mod_two (m.next a)
  have r2 := rot_mod_two (m.next b)
  refine ⟨?_, ?_, ?_, ?_⟩ <;> (intro h; omega)

theorem tauFun_mod_two {m : Mesh} (hwf : wf m) {a b : Nat} (hab : a % 2 = b % 2)
    (z : Nat) : tauFun m a b z % 2 = z % 2 := by
  have pa := wf_parity_all hwf a
  have pb := wf_parity_all hwf b
  have r1 := rot_mod_two (m.next a)
  have r2 := rot_mod_two (m.next b)
  unfold tauFun
  split_ifs with c1 c2 c3 c4 <;> omega

theorem tauFun_lt {m : Mesh} (hwf : wf m) {a b : Nat}
    (ha : a < m.n) (hb : b < m.n) {z : Nat} (hz : z < m.n) :
    tauFun m a b z < m.n := by
  have la : rot (m.next a) < m.n := rot_lt hwf.1 (hwf.2.1 a ha)
  have lb : rot (m.next b) < m.n := rot_lt hwf.1 (hwf.2.1 b hb)
  unfold tauFun
  split_ifs <;> assumption

theorem tauFun_of_ge {m : Mesh} (hwf : wf m) {a b : Nat}
    (ha : a < m.n) (hb : b < m.n) {z : Nat} (hz : m.n ≤ z) :
    tauFun m a b z = z := by
  have la : rot (m.next a) < m.n := rot_lt hwf.1 (hwf.2.1 a ha)
  have lb : rot (m.next b) < m.n := rot_lt hwf.1 (hwf.2.1 b hb)
  unfold tauFun
  split_ifs <;> omega

/-- `Splice` preserves well-formedness when its arguments are allocated
edges of the same layer. -/
theorem wf_splice {m : Mesh} (hwf : wf m) {a b : Nat}
    (ha : a < m.n) (hb : b < m.n) (hab : a % 2 = b % 2) :
    wf (Splice (some a) (some b) m) := by
  obtain ⟨hno1, hno2, hno3, hno4⟩ := splice_no_alias hwf hab
  have htau := splice_next_tau m a b hno1 hno2 hno3 hno4
  refine ⟨hwf.1, ?_, ?_, ?_, ?_⟩
  · intro e he
    rw [splice_n] at he ⊢
    rw [htau]
    exact hwf.2.1 _ (tauFun_lt hwf ha hb he)
  · intro e he
    rw [splice_n] at he
    rw [htau, tauFun_of_ge hwf ha hb he]
    exact hwf.2.2.1 e he
  · intro e he f hf hef
    rw [splice_n] at he hf
    rw [htau, htau] at hef
    have he' := tauFun_lt hwf ha hb he
    have hf' := tauFun_lt hwf ha hb hf
    have := hwf.2.2.2.1 _ he' _ hf' hef
    have h2 := congrArg (tauFun m a b) this
    rwa [tauFun_invol m a b hno1 hno2 hno3 hno4,
         tauFun_invol m a b hno1 hno2 hno3 hno4] at h2
  · intro e he
    rw [splice_n] at he
    rw [htau]
    have := tauFun_mod_two hwf hab e
    have h2 := wf_parity_all hwf (tauFun m a b e)
    omega

theorem iterate_lt {m : Mesh} (hwf : wf m) {e : Nat} (he : e < m.n) (k : Nat) :
    m.next^[k] e < m.n := by
  induction k with
  | zero => simpa using he
  | succ k ih =>
    rw [Function.iterate_succ_apply']
    exact hwf.2.1 _ ih

theorem iterate_mod_two {m : Mesh} (hwf : wf m) (e k : Nat) :
    m.next^[k] e % 2 = e % 2 := by
  induction k with
  | zero => simp
  | succ k ih =>
    rw [Function.iterate_succ_apply']
    rw [wf_parity_all hwf]
    exact ih

theorem iterate_cancel {m : Mesh} (hwf : wf m) (k : Nat) :
    ∀ x y, x < m.n → y < m.n → m.next^[k] x = m.next^[k] y → x = y := by
  induction k with
  | zero => intro x y _ _ h; simpa using h
  | succ k ih =>
    intro x y hx hy h
    rw [Function.iterate_succ_apply', Function.iterate_succ_apply'] at h
    have hx' := iterate_lt hwf hx k
    have hy' := iterate_lt hwf hy k
    exact ih x y hx hy (hwf.2.2.2.1 _ hx' _ hy' h)

/-- Every ring of a well-formed mesh is a closed finite cycle. -/
theorem wf_ringClosed {m : Mesh} (hwf : wf m) (e : Nat) : ringClosed m e := by
  by_cases he : e < m.n
  · have hmap : ∀ i : Fin (m.n + 1), m.next^[i.1] e < m.n := fun i => iterate_lt hwf he i.1
    have hcard : Fintype.card (Fin m.n) < Fintype.card (Fin (m.n + 1)) := by
      simp
    obtain ⟨i, j, hij, hf⟩ :=
      Fintype.exists_ne_map_eq_of_card_lt
        (fun i : Fin (m.n + 1) => (⟨m.next^[i.1] e, hmap i⟩ : Fin m.n)) hcard
    have hval : m.next^[i.1] e = m.next^[j.1] e := congrArg Fin.val hf
    rcases Nat.lt_or_ge i.1 j.1 with hlt | hge
    · refine ⟨j.1 - i.1, by omega, ?_⟩
      have : m.next^[i.1] (m.next^[j.1 - i.1] e) = m.next^[i.1] e := by
        rw [← Function.iterate_add_apply]
        have : i.1 + (j.1 - i.1) = j.1 := by omega
        rw [this, hval]
      exact iterate_cancel hwf i.1 _ e (iterate_lt hwf he _) he this
    · have hlt : j.1 < i.1 := by
        rcases Nat.lt_or_ge j.1 i.1 with h | h
        · exact h
        · exact absurd (Fin.ext (by omega)) hij
      refine ⟨i.1 - j.1, by omega, ?_⟩
      have : m.next^[j.1] (m.next^[i.1 - j.1] e) = m.next^[j.1] e := by
        rw [← Function.iterate_add_apply]
        have : j.1 + (i.1 - j.1) = i.1 := by omega
        rw [this, hval.symm]
      exact iterate_cancel hwf j.1 _ e (iterate_lt hwf he _) he this
  · exact ⟨1, Nat.one_pos, hwf.2.2.1 e (Nat.le_of_not_lt he)⟩

theorem allocQuad_n (o d : Option Point) (m : Mesh) :
    (allocQuad o d m).n = m.n + 4 := rfl

theorem allocQuad_next (o d : Option Point) (m : Mesh) (z : Nat) :
    (allocQuad o d m).next z =
      if z = m.n then m.n
      else if z = m.n + 1 then m.n + 3
      else if z = m.n + 2 then m.n + 2
      else if z = m.n + 3 then m.n + 1
      else m.next z := rfl

theorem allocQuad_next_old (o d : Option Point) {m : Mesh} {z : Nat} (hz : z < m.n) :
    (allocQuad o d m).next z = m.next z := by
  rw [allocQuad_next,
      if_neg (show ¬z = m.n by omega), if_neg (show ¬z = m.n + 1 by omega),
      if_neg (show ¬z = m.n + 2 by omega), if_neg (show ¬z = m.n + 3 by omega)]

/-- The four successor values of a fresh quad-edge group. -/
theorem allocQuad_next_fresh (o d : Option Point) (m : Mesh) :
    (allocQuad o d m).next m.n = m.n ∧
    (allocQuad o d m).next (m.n + 1) = m.n + 3 ∧
    (allocQuad o d m).next (m.n + 2) = m.n + 2 ∧
    (allocQuad o d m).next (m.n + 3) = m.n + 1 := by
  refine ⟨?_, ?_, ?_, ?_⟩ <;> rw [allocQuad_next]
  · rw [if_pos rfl]
  · rw [if_neg (show ¬m.n + 1 = m.n by omega), if_pos rfl]
  · rw [if_neg (show ¬m.n + 2 = m.n by omega),
        if_neg (show ¬m.n + 2 = m.n + 1 by omega), if_pos rfl]
  · rw [if_neg (show ¬m.n + 3 = m.n by omega),
        if_neg (show ¬m.n + 3 = m.n + 1 by omega),
        if_neg (show ¬m.n + 3 = m.n + 2 by omega), if_pos rfl]

theorem allocQuad_orig (o d : Option Point) (m : Mesh) (z : Nat) :
    (allocQuad o d m).orig z =
      if z = m.n then o
      else if z = m.n + 2 then d
      else m.orig z := rfl

/-- Allocating a fresh quad-edge group preserves well-formedness. -/
theorem wf_allocQuad {m : Mesh} (hwf : wf m) (o d : Option Point) :
    wf (allocQuad o d m) := by
  obtain ⟨h4, hlt, hge, hinj, hpar⟩ := hwf
  obtain ⟨hf0, hf1, hf2, hf3⟩ := allocQuad_next_fresh o d m
  have hfreshcase : ∀ z, z < m.n + 4 → ¬z < m.n →
      z = m.n ∨ z = m.n + 1 ∨ z = m.n + 2 ∨ z = m.n + 3 := by intro z h1 h2; omega
  have hvals : ∀ z, z < m.n + 4 → (allocQuad o d m).next z < m.n + 4 ∧
      (allocQuad o d m).next z % 2 = z % 2 := by
    intro z hz
    by_cases h : z < m.n
    · rw [allocQuad_next_old o d h]
      exact ⟨by have := hlt z h; omega, hpar z h⟩
    · rcases hfreshcase z hz h with rfl | rfl | rfl | rfl
      · rw [hf0]; omega
      · rw [hf1]; omega
      · rw [hf2]; omega
      · rw [hf3]; omega
  refine ⟨by show (m.n + 4) % 4 = 0; omega, ?_, ?_, ?_, ?_⟩
  · intro e he
    exact (hvals e he).1
  · intro e he
    have he' : m.n + 4 ≤ e := he
    show (allocQuad o d m).next e = e
    rw [allocQuad_next,
        if_neg (show ¬e = m.n by omega), if_neg (show ¬e = m.n + 1 by omega),
        if_neg (show ¬e = m.n + 2 by omega), if_neg (show ¬e = m.n + 3 by omega)]
    exact hge e (by omega)
  · intro e he f hf hef
    have he' : e < m.n + 4 := he
    have hf' : f < m.n + 4 := hf
    by_cases hem : e < m.n <;> by_cases hfm : f < m.n
    · rw [allocQuad_next_old o d hem, allocQuad_next_old o d hfm] at hef
      exact hinj e hem f hfm hef
    · exfalso
      rw [allocQuad_next_old o d hem] at hef
      have := hlt e hem
      rcases hfreshcase f hf' hfm with rfl | rfl | rfl | rfl <;>
        simp only [hf0, hf1, hf2, hf3] at hef <;> omega
    · exfalso
      rw [allocQuad_next_old o d hfm] at hef
      have := hlt f hfm
      rcases hfreshcase e he' hem with rfl | rfl | rfl | rfl <;>
        simp only [hf0, hf1, hf2, hf3] at hef <;> omega
    · rcases hfreshcase e he' hem with rfl | rfl | rfl | rfl <;>
        rcases hfreshcase f hf' hfm with rfl | rfl | rfl | rfl <;>
        simp only [hf0, hf1, hf2, hf3] at hef <;> omega
  · intro e he
    exact (hvals e he).2

theorem oprev_mod_two {m : Mesh} (hwf : wf m) (e : Nat) :
    oprev m e % 2 = e % 2 := by
  unfold oprev
  have h1 := rot_mod_two (m.next (rot e))
  have h2 := wf_parity_all hwf (rot e)
  have h3 := rot_mod_two e
  omega

theorem oprev_lt {m : Mesh} (hwf : wf m) {e : Nat} (he : e < m.n) :
    oprev m e < m.n :=
  rot_lt hwf.1 (hwf.2.1 _ (rot_lt hwf.1 he))

theorem lnext_mod_two {m : Mesh} (hwf : wf m) (e : Nat) :
    lnext m e % 2 = e % 2 := by
  unfold lnext
  have h1 := rot_mod_two (m.next (invRot e))
  have h2 := wf_parity_all hwf (invRot e)
  have h3 := invRot_mod_two e
  omega

theorem lnext_lt {m : Mesh} (hwf : wf m) {e : Nat} (he : e < m.n) :
    lnext m e < m.n :=
  rot_lt hwf.1 (hwf.2.1 _ (invRot_lt hwf.1 he))

theorem sym_of_mod_four {n : Nat} (h : n % 4 = 0) : sym n = n + 2 := by
  unfold sym; omega

theorem wf_setEndPoints {m : Mesh} (hwf : wf m) (e : Nat) (o d : Option Point) :
    wf (setEndPoints e o d m) := hwf

/-- `Swap` preserves well-formedness for any allocated edge. -/
theorem wf_swap {m : Mesh} (hwf : wf m) {e : Nat} (he : e < m.n) :
    wf (Swap e m) := by
  have hse : sym e < m.n := sym_lt hwf.1 he
  have ha : oprev m e < m.n := oprev_lt hwf he
  have hb : oprev m (sym e) < m.n := oprev_lt hwf hse
  have h1 : wf (Splice (some e) (some (oprev m e)) m) :=
    wf_splice hwf he ha (oprev_mod_two hwf e).symm
  have hn1 : (Splice (some e) (some (oprev m e)) m).n = m.n := rfl
  have h2 : wf (Splice (some (sym e)) (some (oprev m (sym e)))
      (Splice (some e) (some (oprev m e)) m)) := by
    refine wf_splice h1 ?_ ?_ ?_
    · rw [hn1]; exact hse
    · rw [hn1]; exact hb
    · rw [sym_mod_two, oprev_mod_two hwf, sym_mod_two]
  set m2 := Splice (some (sym e)) (some (oprev m (sym e)))
      (Splice (some e) (some (oprev m e)) m) with hm2
  have hn2 : m2.n = m.n := rfl
  have h3 : wf (Splice (some e) (some (lnext m2 (oprev m e))) m2) := by
    refine wf_splice h2 ?_ ?_ ?_
    · rw [hn2]; exact he
    · rw [hn2]; exact lnext_lt h2 (by rw [hn2]; exact ha)
    · rw [lnext_mod_two h2, oprev_mod_two hwf]
  set m3 := Splice (some e) (some (lnext m2 (oprev m e))) m2 with hm3
  have hn3 : m3.n = m.n := rfl
  have h4 : wf (Splice (some (sym e)) (some (lnext m3 (oprev m (sym e)))) m3) := by
    refine wf_splice h3 ?_ ?_ ?_
    · rw [hn3]; exact hse
    · rw [hn3]; exact lnext_lt h3 (by rw [hn3]; exact hb)
    · rw [lnext_mod_two h3, oprev_mod_two hwf]
  exact wf_setEndPoints h4 _ _ _

/-- `Delete` preserves well-formedness for any allocated edge. -/
theorem wf_delete {m : Mesh} (hwf : wf m) {e : Nat} (he : e < m.n) :
    wf (Delete (some e) m) := by
  have hse : sym e < m.n := sym_lt hwf.1 he
  have h1 : wf (Splice (some e) (some (oprev m e)) m) :=
    wf_splice hwf he (oprev_lt hwf he) (oprev_mod_two hwf e).symm
  set m1 := Splice (some e) (some (oprev m e)) m with hm1
  have hn1 : m1.n = m.n := rfl
  refine wf_splice h1 ?_ ?_ ?_
  · rw [hn1]; exact hse
  · rw [hn1]; exact oprev_lt h1 (by rw [hn1]; exact hse)
  · rw [oprev_mod_two h1]

/-- `Connect` preserves well-formedness when both arguments are allocated
primal edges, whether or not the resolution step succeeds. -/
theorem wf_connect {m : Mesh} (hwf : wf m) {a b : Nat} (ord : Winding)
    (ha : a < m.n) (hb : b < m.n) (haE : a % 2 = 0) (hbE : b % 2 = 0) :
    wf (Connect (some a) (some b) ord m).2 := by
  show wf (match ResolveEdge ord m b (dest m a) with
    | none => ((none : Option Nat), m)
    | some bb =>
      (some m.n,
       Splice (some (sym m.n)) (some bb)
         (Splice (some m.n) (some (lnext (allocQuad (dest m a) (m.orig bb) m) a))
           (allocQuad (dest m a) (m.orig bb) m)))).2
  rcases hr : ResolveEdge ord m b (dest m a) with _ | bb
  · exact hwf
  · have hbb : bb = b ∨ bb = sym b := by
      unfold ResolveEdge at hr
      split_ifs at hr
      · exact Or.inl (Option.some_injective _ hr).symm
      · exact Or.inr (Option.some_injective _ hr).symm
    have hbbLt : bb < m.n := by
      rcases hbb with rfl | rfl
      · exact hb
      · exact sym_lt hwf.1 hb
    have hbbE : bb % 2 = 0 := by
      rcases hbb with rfl | rfl
      · exact hbE
      · rw [sym_mod_two]; exact hbE
    set m1 := allocQuad (dest m a) (m.orig bb) m with hm1
    have hwf1 : wf m1 := wf_allocQuad hwf _ _
    have hn1 : m1.n = m.n + 4 := rfl
    have h4 : m.n % 4 = 0 := hwf.1
    have hsp1 : wf (Splice (some m.n) (some (lnext m1 a)) m1) := by
      refine wf_splice hwf1 ?_ ?_ ?_
      · rw [hn1]; omega
      · rw [hn1]; exact lnext_lt hwf1 (by rw [hn1]; omega)
      · rw [lnext_mod_two hwf1]; omega
    set m2 := Splice (some m.n) (some (lnext m1 a)) m1 with hm2
    have hn2 : m2.n = m.n + 4 := rfl
    refine wf_splice hsp1 ?_ ?_ ?_
    · rw [hn2, sym_of_mod_four h4]; omega
    · rw [hn2]; omega
    · rw [sym_of_mod_four h4]; omega

theorem Mesh.ext2 {m1 m2 : Mesh} (hn : m1.n = m2.n) (hx : m1.next = m2.next)
    (ho : m1.orig = m2.orig) : m1 = m2 := by
  cases m1; cases m2
  cases hn; cases hx; cases ho
  rfl

theorem tauFun_self (m : Mesh) (a b : Nat) : tauFun m a b a = b := by
  unfold tauFun; rw [if_pos rfl]

theorem tauFun_snd (m : Mesh) {a b : Nat} (hne : b ≠ a) : tauFun m a b b = a := by
  unfold tauFun; rw [if_neg hne, if_pos rfl]

theorem tauFun_other {m : Mesh} (hwf : wf m) {a b z : Nat}
    (hza : z ≠ a) (hzb : z ≠ b) (hpz : z % 2 = a % 2) (hab : a % 2 = b % 2) :
    tauFun m a b z = z := by
  have wa := wf_parity_all hwf a
  have wb := wf_parity_all hwf b
  have r1 := rot_mod_two (m.next a)
  have r2 := rot_mod_two (m.next b)
  unfold tauFun
  rw [if_neg hza, if_neg hzb, if_neg (show ¬z = rot (m.next a) by intro h; omega),
      if_neg (show ¬z = rot (m.next b) by intro h; omega)]

/-- On the slots of the two splice arguments the exchange is unchanged by
the splice itself, so a second identical `Splice` undoes the first. -/
theorem splice_invol {m : Mesh} {a b : Nat} (hwf : wf m)
    (ha : a < m.n) (hb : b < m.n) (hab : a % 2 = b % 2) :
    Splice (some a) (some b) (Splice (some a) (some b) m) = m := by
  obtain ⟨h1, h2, h3, h4⟩ := splice_no_alias hwf hab
  set m' := Splice (some a) (some b) m with hm'
  have hwf' : wf m' := wf_splice hwf ha hb hab
  obtain ⟨h1', h2', h3', h4'⟩ := splice_no_alias hwf' hab
  have htau := splice_next_tau m a b h1 h2 h3 h4
  have htau' := splice_next_tau m' a b h1' h2' h3' h4'
  have hea : m'.next a = m.next b := by rw [htau, tauFun_self]
  have heb : m'.next b = m.next a := by
    by_cases hba : b = a
    · subst hba; exact hea
    · rw [htau, tauFun_snd m hba]
  refine Mesh.ext2 rfl ?_ rfl
  funext z
  have htaueq : tauFun m' a b z = tauFun m a b z := by
    unfold tauFun
    rw [hea, heb]
    split_ifs <;> cc
  rw [htau', htaueq, htau, tauFun_invol m a b h1 h2 h3 h4]

/-- Splicing two edges of distinct origin rings concatenates the two
rings: the walk from `a` first traverses `b`'s old ring and then `a`'s
old ring, so the merged ring size is the sum, and `b` is now reachable
from `a`. -/
theorem splice_merge {m : Mesh} {a b p q : Nat} (hwf : wf m)
    (hab : a % 2 = b % 2)
    (hdist : ¬ sameRing m a b)
    (hp : isRingSize m a p) (hq : isRingSize m b q) :
    isRingSize (Splice (some a) (some b) m) a (p + q) ∧
    sameRing (Splice (some a) (some b) m) a b := by
  obtain ⟨h1, h2, h3, h4⟩ := splice_no_alias hwf hab
  have htau := splice_next_tau m a b h1 h2 h3 h4
  have hba : b ≠ a := by
    intro h
    exact hdist ⟨0, by simpa using h.symm⟩
  set g := (Splice (some a) (some b) m).next with hg
  have hq1 := hq.1
  have hp1 := hp.1
  have hnotb : ∀ k, 0 < k → k < q → m.next^[k] b ≠ b := hq.2.2
  have hnota : ∀ k, 0 < k → k ≤ q → m.next^[k] b ≠ a := by
    intro k hk0 hkq h
    apply hdist
    refine ⟨q - k, ?_⟩
    have hsum : m.next^[q - k] (m.next^[k] b) = b := by
      rw [← Function.iterate_add_apply]
      rw [show q - k + k = q by omega]
      exact hq.2.1
    rw [h] at hsum
    exact hsum
  have iterA : ∀ k, 1 ≤ k → k ≤ q → g^[k] a = m.next^[k] b := by
    intro k
    induction k with
    | zero => intro h; exact absurd h (by omega)
    | succ k ih =>
      intro _ hk1
      by_cases hk0 : k = 0
      · subst hk0
        rw [Function.iterate_one, Function.iterate_one, htau, tauFun_self]
      · have ihh := ih (by omega) (by omega)
        rw [Function.iterate_succ_apply', Function.iterate_succ_apply', ihh, htau]
        rw [tauFun_other hwf (hnota k (by omega) (by omega))
          (hnotb k (by omega) (by omega))
          (by rw [iterate_mod_two hwf]; omega) hab]
  have hgq : g^[q] a = b := by
    rw [iterA q hq1 le_rfl, hq.2.1]
  have iterB : ∀ j, 1 ≤ j → j ≤ p → g^[q + j] a = m.next^[j] a := by
    intro j
    induction j with
    | zero => intro h; exact absurd h (by omega)
    | succ j ih =>
      intro _ hjp
      by_cases hj0 : j = 0
      · subst hj0
        show g^[q + 1] a = m.next^[1] a
        rw [Function.iterate_succ_apply', Function.iterate_one, hgq, htau,
          tauFun_snd m hba]
      · have ihh := ih (by omega) (by omega)
        rw [show q + (j + 1) = (q + j) + 1 by omega,
          Function.iterate_succ_apply', Function.iterate_succ_apply', ihh, htau]
        rw [tauFun_other hwf (hp.2.2 j (by omega) (by omega))
          (fun h => hdist ⟨j, h⟩)
          (by rw [iterate_mod_two hwf]) hab]
  have hper : g^[p + q] a = a := by
    rw [show p + q = q + p by omega, iterB p hp1 le_rfl, hp.2.1]
  refine ⟨⟨by omega, hper, ?_⟩, ⟨q, hgq⟩⟩
  intro k hk0 hkpq hEq
  by_cases hkq : k ≤ q
  · rw [iterA k (by omega) hkq] at hEq
    exact hnota k hk0 hkq hEq
  · have hkb : 1 ≤ k - q ∧ k - q < p := by omega
    have := iterB (k - q) hkb.1 (by omega)
    rw [show q + (k - q) = k by omega] at this
    rw [this] at hEq
    exact hp.2.2 (k - q) (by omega) hkb.2 hEq

theorem rot_of_mod_four {n : Nat} (h : n % 4 = 0) : rot n = n + 1 := by
  unfold rot; omega

theorem rot_add_two_of_mod_four {n : Nat} (h : n % 4 = 0) : rot (n + 2) = n + 3 := by
  unfold rot; omega

theorem rot_add_three_of_mod_four {n : Nat} (h : n % 4 = 0) : rot (n + 3) = n := by
  unfold rot; omega

/-- On a consistent quad-edge group, `OPrev` really is the inverse of
`ONext`: taking the clockwise-previous edge and then the
counter-clockwise-next edge returns the starting edge. -/
theorem onext_oprev {m : Mesh} (hq : qwf m) (hwf : wf m) {e : Nat}
    (he : e < m.n) : onext m (oprev m e) = e := by
  unfold onext oprev
  have h := hq (rot e) (rot_lt hwf.1 he)
  have h2 := congrArg invRot h
  rw [invRot_rot] at h2
  calc m.next (rot (m.next (rot e)))
      = invRot (rot (m.next (rot (m.next (rot e))))) := (invRot_rot _).symm
    _ = invRot (rot e) := by rw [h]
    _ = e := invRot_rot e

theorem invRot_invRot (e : Nat) : invRot (invRot e) = sym e := by
  unfold invRot sym; omega

/-- C4: with both arguments allocated primal edges whose endpoints satisfy
the adjacency precondition (the resolution step returns `b` itself, and
`b`'s successor is not `a`'s reverse), `Connect(a, b, order)` returns the
newly created edge `m.n`, whose origin is `a`'s destination and whose
destination is `b`'s origin, and one left-face step from `a` reaches the
new edge. -/
theorem connect_new_edge {m : Mesh} (a b : Nat) (ord : Winding)
    (hwf : wf m) (hqw : qwf m) (ha : a < m.n) (hb : b < m.n)
    (haE : a % 2 = 0) (hbE : b % 2 = 0)
    (hres : m.orig b = dest m a) (hnc : m.next b ≠ sym a) :
    (Connect (some a) (some b) ord m).1 = some m.n ∧
    ((Connect (some a) (some b) ord m).2).orig m.n = dest m a ∧
    dest ((Connect (some a) (some b) ord m).2) m.n = m.orig b ∧
    lnext ((Connect (some a) (some b) ord m).2) a = m.n := by
  have h4 : m.n % 4 = 0 := hwf.1
  have hResolve : ResolveEdge ord m b (dest m a) = some b := by
    unfold ResolveEdge; rw [if_pos hres]
  have hconn : Connect (some a) (some b) ord m =
      (some m.n,
        Splice (some (sym m.n)) (some b)
          (Splice (some m.n) (some (lnext (allocQuad (dest m a) (m.orig b) m) a))
            (allocQuad (dest m a) (m.orig b) m))) := by
    show (match ResolveEdge ord m b (dest m a) with
      | none => ((none : Option Nat), m)
      | some bb =>
        (some m.n,
          Splice (some (sym m.n)) (some bb)
            (Splice (some m.n) (some (lnext (allocQuad (dest m a) (m.orig bb) m) a))
              (allocQuad (dest m a) (m.orig bb) m)))) = _
    rw [hResolve]
  set m1 := allocQuad (dest m a) (m.orig b) m with hm1
  have hwf1 : wf m1 := wf_allocQuad hwf _ _
  obtain ⟨hf0, hf1, hf2, hf3⟩ := allocQuad_next_fresh (dest m a) (m.orig b) m
  set c := lnext m1 a with hcdef
  set m2 := Splice (some m.n) (some c) m1 with hm2
  set m3 := Splice (some (sym m.n)) (some b) m2 with hm3
  have h2nd : (Connect (some a) (some b) ord m).2 = m3 := congrArg Prod.snd hconn
  have h1st : (Connect (some a) (some b) ord m).1 = some m.n := congrArg Prod.fst hconn
  have hiaLt : invRot a < m.n := invRot_lt h4 ha
  have hiaOdd : invRot a % 2 = 1 := by
    have := invRot_mod_two a; omega
  have hnextia : m1.next (invRot a) = m.next (invRot a) :=
    allocQuad_next_old _ _ hiaLt
  have hcEq : c = rot (m.next (invRot a)) := by
    rw [hcdef]; unfold lnext; rw [hnextia]
  have hcLt : c < m.n := by
    rw [hcEq]; exact rot_lt h4 (hwf.2.1 _ hiaLt)
  have hcE : c % 2 = 0 := by
    have := lnext_mod_two hwf1 a; rw [← hcdef] at this; omega
  have hbeta1 : rot (m1.next c) = invRot a := by
    rw [show m1.next c = m.next c from allocQuad_next_old _ _ hcLt, hcEq]
    exact hqw (invRot a) hiaLt
  have hm2ia : m2.next (invRot a) = m.n + 3 := by
    rw [hm2, splice_next, if_pos hbeta1.symm, hf0, rot_of_mod_four h4, hf1]
  have hsymN : sym m.n = m.n + 2 := sym_of_mod_four h4
  have hm2symN : m2.next (sym m.n) = m.n + 2 := by
    rw [hsymN, hm2, splice_next, hbeta1, hf0, rot_of_mod_four h4,
        if_neg (show ¬m.n + 2 = invRot a by omega),
        if_neg (show ¬m.n + 2 = m.n + 1 by omega),
        if_neg (show ¬m.n + 2 = c by omega),
        if_neg (show ¬m.n + 2 = m.n by omega), hf2]
  have hm2b : (b = c ∧ m2.next b = m.n) ∨ (b ≠ c ∧ m2.next b = m.next b) := by
    by_cases hbc : b = c
    · refine Or.inl ⟨hbc, ?_⟩
      rw [hm2, splice_next, hbeta1, hf0, rot_of_mod_four h4,
          if_neg (show ¬b = invRot a by omega),
          if_neg (show ¬b = m.n + 1 by omega), if_pos hbc]
    · refine Or.inr ⟨hbc, ?_⟩
      rw [hm2, splice_next, hbeta1, hf0, rot_of_mod_four h4,
          if_neg (show ¬b = invRot a by omega),
          if_neg (show ¬b = m.n + 1 by omega), if_neg hbc,
          if_neg (show ¬b = m.n by omega)]
      exact allocQuad_next_old _ _ hb
  have hne1 : invRot a ≠ rot (m2.next b) := by
    rcases hm2b with ⟨_, hval⟩ | ⟨_, hval⟩
    · rw [hval, rot_of_mod_four h4]; omega
    · rw [hval]
      intro h
      apply hnc
      have := congrArg invRot h
      rw [invRot_rot, invRot_invRot] at this
      exact this.symm
  have hm3ia : m3.next (invRot a) = m.n + 3 := by
    rw [hm3, splice_next, hm2symN, rot_add_two_of_mod_four h4,
        if_neg (fun h => hne1 h), if_neg (show ¬invRot a = m.n + 3 by omega),
        if_neg (show ¬invRot a = b by omega),
        if_neg (show ¬invRot a = sym m.n by rw [hsymN]; omega), hm2ia]
  have horig : m3.orig = m1.orig := rfl
  refine ⟨h1st, ?_, ?_, ?_⟩
  · rw [h2nd, horig, hm1, allocQuad_orig, if_pos rfl]
  · rw [h2nd]
    unfold dest
    rw [horig, hsymN, hm1, allocQuad_orig,
        if_neg (show ¬m.n + 2 = m.n by omega), if_pos rfl]
  · rw [h2nd]
    unfold lnext
    rw [hm3ia, rot_add_three_of_mod_four h4]

/-! ## Decidable checks for concrete meshes -/

theorem wf_of_checks {m : Mesh} (h1 : wfB m = true)
    (h2 : ∀ e, m.n ≤ e → m.next e = e) : wf m := by
  unfold wfB at h1
  simp only [Bool.and_eq_true, List.all_eq_true, List.mem_range,
    decide_eq_true_eq, Bool.or_eq_true, Bool.not_eq_true', beq_eq_false_iff_ne,
    ne_eq, beq_iff_eq] at h1
  obtain ⟨⟨hmod, hb⟩, hinj⟩ := h1
  refine ⟨hmod, fun e he => (hb e he).1, h2, ?_, fun e he => (hb e he).2⟩
  intro e he f hf hef
  rcases hinj e he f hf with h | h
  · exact absurd hef h
  · exact h

theorem qwf_of_check {m : Mesh} (h : qwfB m = true) : qwf m := by
  unfold qwfB at h
  simp only [List.all_eq_true, List.mem_range, beq_iff_eq] at h
  exact h

theorem mkNext_out {t : List (Nat × Nat)} {n : Nat}
    (h : ∀ p ∈ t, p.1 < n) : ∀ e, n ≤ e → mkNext t e = e := by
  intro e he
  unfold mkNext
  rw [List.find?_eq_none.mpr]
  · rfl
  · intro p hp
    simp only [beq_iff_eq]
    have := h p hp
    omega

theorem wf_pairMesh : wf pairMesh :=
  wf_of_checks rfl (mkNext_out (by decide))

theorem qwf_pairMesh : qwf pairMesh := qwf_of_check rfl

/-! ## Claim theorems -/

/-- C1: for non-null edges `a`, `b` of a quad-edge structure (no slot of
the pair `a, b` coincides with a slot of the pair `alpha, beta`, which the
layer invariant guarantees), `Splice(a, b)` computes
`alpha = Rot(ONext(a))` and `beta = Rot(ONext(b))`, reads all four
successors from the state before any write — so the reassigned values are
the original successors even when `a = b` or `alpha = beta` — and then
reassigns exactly the four successors; the allocation bound, every origin
point and the successor of every other slot are untouched. -/
theorem splice_four_way_reassignment (m : Mesh) (a b : Nat)
    (h1 : a ≠ rot (m.next a)) (h2 : a ≠ rot (m.next b))
    (h3 : b ≠ rot (m.next a)) (h4 : b ≠ rot (m.next b)) :
    (Splice (some a) (some b) m).next a = m.next b ∧
    (Splice (some a) (some b) m).next b = m.next a ∧
    (Splice (some a) (some b) m).next (rot (m.next a)) = m.next (rot (m.next b)) ∧
    (Splice (some a) (some b) m).next (rot (m.next b)) = m.next (rot (m.next a)) ∧
    (Splice (some a) (some b) m).n = m.n ∧
    (Splice (some a) (some b) m).orig = m.orig ∧
    (∀ z, z ≠ a → z ≠ b → z ≠ rot (m.next a) → z ≠ rot (m.next b) →
      (Splice (some a) (some b) m).next z = m.next z) := by
  have htau := splice_next_tau m a b h1 h2 h3 h4
  refine ⟨?_, ?_, ?_, ?_, rfl, rfl, ?_⟩
  · rw [htau, tauFun_self]
  · by_cases hba : b = a
    · subst hba; rw [htau, tauFun_self]
    · rw [htau, tauFun_snd m hba]
  · rw [htau]
    by_cases hax : rot (m.next a) = rot (m.next b)
    · rw [show tauFun m a b (rot (m.next a)) = rot (m.next b) from ?_]
      · unfold tauFun
        rw [if_neg (fun h => h1 h.symm), if_neg (fun h => h3 h.symm)]
        by_cases hc : rot (m.next a) = rot (m.next a)
        · rw [if_pos hc]
        · exact absurd rfl hc
    · rw [show tauFun m a b (rot (m.next a)) = rot (m.next b) from ?_]
      · unfold tauFun
        rw [if_neg (fun h => h1 h.symm), if_neg (fun h => h3 h.symm), if_pos rfl]
  · rw [htau]
    rw [show tauFun m a b (rot (m.next b)) = rot (m.next a) from ?_]
    unfold tauFun
    split_ifs <;> cc
  · intro z hza hzb hzalpha hzbeta
    rw [htau]
    unfold tauFun
    rw [if_neg hza, if_neg hzb, if_neg hzalpha, if_neg hzbeta]

/-- C2: on a well-formed quad-edge structure, each of the four mutating
operations — `Splice` on two allocated same-layer edges, `Connect` on two
allocated primal edges, `Swap` and `Delete` on an allocated edge — leaves
the `next`-chain of every slot a closed finite cycle returning to its
start. -/
theorem ops_preserve_ring_closure {m : Mesh} (hwf : wf m) (a b e : Nat)
    (ord : Winding) (ha : a < m.n) (hb : b < m.n)
    (haE : a % 2 = 0) (hbE : b % 2 = 0) (he : e < m.n) :
    (∀ x, ringClosed (Splice (some a) (some b) m) x) ∧
    (∀ x, ringClosed (Connect (some a) (some b) ord m).2 x) ∧
    (∀ x, ringClosed (Swap e m) x) ∧
    (∀ x, ringClosed (Delete (some e) m) x) :=
  ⟨fun x => wf_ringClosed (wf_splice hwf ha hb (by omega)) x,
   fun x => wf_ringClosed (wf_connect hwf ord ha hb haE hbE) x,
   fun x => wf_ringClosed (wf_swap hwf he) x,
   fun x => wf_ringClosed (wf_delete hwf he) x⟩

/-- C3: splicing two allocated same-layer edges that lie in distinct
origin rings merges the rings into one of combined size, and a second
identical `Splice` restores the mesh exactly, so it splits the merged
ring back into the two original rings with their original sizes. -/
theorem splice_merge_then_split {m : Mesh} (hwf : wf m) (a b p q : Nat)
    (ha : a < m.n) (hb : b < m.n) (hab : a % 2 = b % 2)
    (hdist : ¬sameRing m a b) (hp : isRingSize m a p) (hq : isRingSize m b q) :
    isRingSize (Splice (some a) (some b) m) a (p + q) ∧
    sameRing (Splice (some a) (some b) m) a b ∧
    Splice (some a) (some b) (Splice (some a) (some b) m) = m ∧
    isRingSize (Splice (some a) (some b) (Splice (some a) (some b) m)) a p ∧
    isRingSize (Splice (some a) (some b) (Splice (some a) (some b) m)) b q ∧
    ¬sameRing (Splice (some a) (some b) (Splice (some a) (some b) m)) a b := by
  obtain ⟨hsize, hsame⟩ := splice_merge hwf hab hdist hp hq
  have hinv := splice_invol hwf ha hb hab
  exact ⟨hsize, hsame, hinv, by rw [hinv]; exact hp, by rw [hinv]; exact hq,
    by rw [hinv]; exact hdist⟩

theorem swap_orig (m : Mesh) (e : Nat) :
    (Swap e m).orig e = m.orig (sym (oprev m e)) ∧
    (Swap e m).orig (sym e) = m.orig (sym (oprev m (sym e))) := by
  have h1 : (Swap e m).orig e =
      if e = sym e then m.orig (sym (oprev m (sym e)))
      else if e = e then m.orig (sym (oprev m e))
      else m.orig e := rfl
  have h2 : (Swap e m).orig (sym e) =
      if sym e = sym e then m.orig (sym (oprev m (sym e)))
      else if sym e = e then m.orig (sym (oprev m e))
      else m.orig (sym e) := rfl
  constructor
  · rw [h1, if_neg (fun h => sym_ne e h.symm), if_pos rfl]
  · rw [h2, if_pos rfl]

set_option maxHeartbeats 1600000 in
/-- C5: every single `Swap(e)` reassigns `e`'s endpoints to the
destinations of `OPrev(e)` and `OPrev(Sym(e))` as they stood before the
call (the intervening splices never touch origin points); on the
canonical quadrilateral with two triangular faces, swapping the interior
diagonal twice returns it to its original endpoint pair — the unordered
pair of endpoints is restored, each 90° swap having turned the diagonal
so that two of them reverse its direction. -/
theorem swap_twice_restores_diagonal :
    (∀ (m : Mesh) (e : Nat),
      (Swap e m).orig e = dest m (oprev m e) ∧
      dest (Swap e m) e = dest m (oprev m (sym e))) ∧
    (∀ P Q R S : Point,
      (Swap 0 (quadMesh P Q R S)).orig 0 = some Q ∧
      dest (Swap 0 (quadMesh P Q R S)) 0 = some S ∧
      (Swap 0 (Swap 0 (quadMesh P Q R S))).orig 0 = some R ∧
      dest (Swap 0 (Swap 0 (quadMesh P Q R S))) 0 = some P ∧
      (quadMesh P Q R S).orig 0 = some P ∧
      dest (quadMesh P Q R S) 0 = some R ∧
      ({(Swap 0 (Swap 0 (quadMesh P Q R S))).orig 0,
        dest (Swap 0 (Swap 0 (quadMesh P Q R S))) 0} : Set (Option Point)) =
        {(quadMesh P Q R S).orig 0, dest (quadMesh P Q R S) 0}) := by
  constructor
  · intro m e
    exact swap_orig m e
  · intro P Q R S
    have hq1 : (Swap 0 (quadMesh P Q R S)).orig 0 = some Q := by
      norm_num [Swap, Splice, writeNext, setEndPoints, oprev, lnext, dest,
        quadMesh, mkNext, mkOrig, rot, sym, invRot]
    have hq2 : dest (Swap 0 (quadMesh P Q R S)) 0 = some S := by
      norm_num [Swap, Splice, writeNext, setEndPoints, oprev, lnext, dest,
        quadMesh, mkNext, mkOrig, rot, sym, invRot]
    have hq3 : (Swap 0 (Swap 0 (quadMesh P Q R S))).orig 0 = some R := by
      norm_num [Swap, Splice, writeNext, setEndPoints, oprev, lnext, dest,
        quadMesh, mkNext, mkOrig, rot, sym, invRot]
    have hq4 : dest (Swap 0 (Swap 0 (quadMesh P Q R S))) 0 = some P := by
      norm_num [Swap, Splice, writeNext, setEndPoints, oprev, lnext, dest,
        quadMesh, mkNext, mkOrig, rot, sym, invRot]
    have hq5 : (quadMesh P Q R S).orig 0 = some P := rfl
    have hq6 : dest (quadMesh P Q R S) 0 = some R := rfl
    refine ⟨hq1, hq2, hq3, hq4, hq5, hq6, ?_⟩
    rw [hq3, hq4, hq5, hq6]
    exact Set.pair_comm (some R) (some P)

/-- C6: a null argument is never fatal: `Splice` with a null edge on
either side is an identity on the state, `Delete` of a null edge is an
identity on the state, and `Connect` with a null edge on either side
returns no edge and an unchanged state. -/
theorem null_edge_arguments_safe (m : Mesh) (x : Option Nat) (ord : Winding) :
    Splice none x m = m ∧ Splice x none m = m ∧
    Delete none m = m ∧
    Connect none x ord m = (none, m) ∧ Connect x none ord m = (none, m) := by
  refine ⟨?_, ?_, rfl, ?_, ?_⟩ <;> cases x <;> rfl

/-- C10: unlike `Splice` and `Delete`, `Swap` has no null guard: its very
first step dereferences the argument through `OPrev`, so the fatal branch
of the nullable wrapper is taken exactly on the null edge, while a
non-null edge always yields a result; `Splice` and `Delete` instead treat
the null edge as a no-op. -/
theorem swap_null_is_fatal (m : Mesh) :
    SwapChecked none m = none ∧
    (∀ e, SwapChecked (some e) m = some (Swap e m)) ∧
    (∀ x, Splice none x m = m) ∧ Delete none m = m :=
  ⟨rfl, fun _ => rfl, fun x => by cases x <;> rfl, rfl⟩

/-! ## Predicate and bounding-box lemmas -/

theorem sign_of_within_eps {f : ℚ} (h : |f| ≤ EPSILON) : sign f = 0 := by
  unfold sign; rw [if_pos h]

theorem sign_of_gt_eps {f : ℚ} (h : EPSILON < f) : sign f = 1 := by
  unfold sign
  have h1 : ¬|f| ≤ EPSILON := by
    intro hc
    have := le_abs_self f
    linarith
  have h2 : ¬f < 0 := by
    have : (0 : ℚ) < EPSILON := by norm_num [EPSILON]
    linarith
  rw [if_neg h1, if_neg h2]

theorem sign_of_lt_neg_eps {f : ℚ} (h : f < -EPSILON) : sign f = -1 := by
  unfold sign
  have h1 : ¬|f| ≤ EPSILON := by
    intro hc
    have := neg_abs_le f
    linarith
  have h2 : f < 0 := by
    have : (0 : ℚ) < EPSILON := by norm_num [EPSILON]
    linarith
  rw [if_neg h1, if_pos h2]

theorem rightOf_eval {m : Mesh} {e : Nat} {org dst : Point}
    (horg : m.orig e = some org) (hdst : m.orig (sym e) = some dst)
    (fl : Bool) (x : Point) :
    RightOf fl x m e =
      decide (sign (crossP (subP x org) (subP dst org)) =
        if fl then (-1 : ℚ) else 1) := by
  unfold RightOf
  rw [horg, hdst]

theorem param_bounds {pa qa xa : ℚ} (hne : qa ≠ pa)
    (h1 : min pa qa ≤ xa) (h2 : xa ≤ max pa qa) :
    0 ≤ (xa - pa) / (qa - pa) ∧ (xa - pa) / (qa - pa) ≤ 1 := by
  rcases lt_or_gt_of_ne hne with h | h
  · rw [min_eq_right (le_of_lt h)] at h1
    rw [max_eq_left (le_of_lt h)] at h2
    have hd : qa - pa < 0 := by linarith
    constructor
    · exact div_nonneg_iff.mpr (Or.inr ⟨by linarith, le_of_lt hd⟩)
    · rw [div_le_one_iff]
      right; right
      exact ⟨hd, by linarith⟩
  · rw [min_eq_left (le_of_lt h)] at h1
    rw [max_eq_right (le_of_lt h)] at h2
    have hd : (0 : ℚ) < qa - pa := by linarith
    exact ⟨div_nonneg (by linarith) (le_of_lt hd), (div_le_one hd).mpr (by linarith)⟩

/-- The computed segment-membership test agrees with the parametric
description of the closed segment. -/
theorem isPointOnLineSegment_iff (x p q : Point) :
    isPointOnLineSegment x p q = true ↔ onClosedSegment x p q := by
  unfold isPointOnLineSegment onClosedSegment
  simp only [Bool.and_eq_true, decide_eq_true_eq]
  constructor
  · rintro ⟨⟨⟨⟨hc, hminx⟩, hmaxx⟩, hminy⟩, hmaxy⟩
    by_cases hq1 : q.1 = p.1
    · rw [hq1] at hminx hmaxx
      rw [min_self] at hminx
      rw [max_self] at hmaxx
      by_cases hq2 : q.2 = p.2
      · rw [hq2] at hminy hmaxy
        rw [min_self] at hminy
        rw [max_self] at hmaxy
        exact ⟨0, le_refl 0, by norm_num, by linarith [hminx, hmaxx],
          by linarith [hminy, hmaxy]⟩
      · have hd : q.2 - p.2 ≠ 0 := sub_ne_zero.mpr hq2
        obtain ⟨ht0, ht1⟩ := param_bounds hq2 hminy hmaxy
        refine ⟨(x.2 - p.2) / (q.2 - p.2), ht0, ht1, ?_, ?_⟩
        · rw [hq1]
          ring_nf
          linarith [hminx, hmaxx]
        · field_simp
    · have hd : q.1 - p.1 ≠ 0 := sub_ne_zero.mpr hq1
      obtain ⟨ht0, ht1⟩ := param_bounds hq1 hminx hmaxx
      refine ⟨(x.1 - p.1) / (q.1 - p.1), ht0, ht1, ?_, ?_⟩
      · field_simp
      · field_simp
        linear_combination -hc
  · rintro ⟨t, ht0, ht1, hx, hy⟩
    refine ⟨⟨⟨⟨?_, ?_⟩, ?_⟩, ?_⟩, ?_⟩
    · rw [hx, hy]; ring
    · rw [hx]
      rcases le_total p.1 q.1 with h | h
      · rw [min_eq_left h]
        nlinarith
      · rw [min_eq_right h]
        nlinarith
    · rw [hx]
      rcases le_total p.1 q.1 with h | h
      · rw [max_eq_right h]
        nlinarith
      · rw [max_eq_left h]
        nlinarith
    · rw [hy]
      rcases le_total p.2 q.2 with h | h
      · rw [min_eq_left h]
        nlinarith
      · rw [min_eq_right h]
        nlinarith
    · rw [hy]
      rcases le_total p.2 q.2 with h | h
      · rw [max_eq_right h]
        nlinarith
      · rw [max_eq_left h]
        nlinarith

theorem bboxStepX_eq (bb : BoundingBox) (h : bb.b0 ≤ bb.b2) (x : ℚ) :
    bboxStepX bb x = { bb with b0 := min bb.b0 x, b2 := max bb.b2 x } := by
  unfold bboxStepX
  by_cases c1 : x < bb.b0
  · rw [if_pos c1, min_eq_right (le_of_lt c1), max_eq_left (by linarith)]
  · rw [if_neg c1]
    by_cases c2 : bb.b2 < x
    · rw [if_pos c2, min_eq_left (le_of_not_lt c1), max_eq_right (le_of_lt c2)]
    · rw [if_neg c2, min_eq_left (le_of_not_lt c1), max_eq_left (le_of_not_lt c2)]

theorem bboxStepY_eq (bb : BoundingBox) (h : bb.b1 ≤ bb.b3) (y : ℚ) :
    bboxStepY bb y = { bb with b1 := min bb.b1 y, b3 := max bb.b3 y } := by
  unfold bboxStepY
  by_cases c1 : y < bb.b1
  · rw [if_pos c1, min_eq_right (le_of_lt c1), max_eq_left (by linarith)]
  · rw [if_neg c1]
    by_cases c2 : bb.b3 < y
    · rw [if_pos c2, min_eq_left (le_of_not_lt c1), max_eq_right (le_of_lt c2)]
    · rw [if_neg c2, min_eq_left (le_of_not_lt c1), max_eq_left (le_of_not_lt c2)]

theorem bboxStep_eq {bb : BoundingBox} (h02 : bb.b0 ≤ bb.b2) (h13 : bb.b1 ≤ bb.b3)
    (xy : ℚ × ℚ) :
    bboxStep bb xy = ⟨min bb.b0 xy.1, min bb.b1 xy.2, max bb.b2 xy.1, max bb.b3 xy.2⟩ := by
  unfold bboxStep
  rw [bboxStepX_eq bb h02]
  exact bboxStepY_eq ⟨bb.b0 ⊓ xy.1, bb.b1, bb.b2 ⊔ xy.1, bb.b3⟩ h13 xy.2

theorem bbox_foldl (l : List (ℚ × ℚ)) :
    ∀ bb : BoundingBox, bb.b0 ≤ bb.b2 → bb.b1 ≤ bb.b3 →
      l.foldl bboxStep bb =
        ⟨l.foldl (fun acc p => min acc p.1) bb.b0,
         l.foldl (fun acc p => min acc p.2) bb.b1,
         l.foldl (fun acc p => max acc p.1) bb.b2,
         l.foldl (fun acc p => max acc p.2) bb.b3⟩ := by
  induction l with
  | nil => intro bb h1 h2; rfl
  | cons p l ih =>
    intro bb h1 h2
    rw [List.foldl_cons, List.foldl_cons, List.foldl_cons, List.foldl_cons,
        List.foldl_cons, bboxStep_eq h1 h2]
    exact ih ⟨min bb.b0 p.1, min bb.b1 p.2, max bb.b2 p.1, max bb.b3 p.2⟩
      (le_trans (min_le_left _ _) (le_trans h1 (le_max_left _ _)))
      (le_trans (min_le_left _ _) (le_trans h2 (le_max_left _ _)))

/-- C7: when both endpoints are set, a cross product within the fixed
epsilon of zero makes `RightOf` false for both `yFlip` conventions, and a
cross product beyond the epsilon makes `RightOf` agree with the analytic
sign under the chosen convention; in particular, for the edge from (0,0)
to (10,0), the point (5,5) is not right of the edge and the point (5,−5)
is, with `yFlip = false`. -/
theorem rightOf_sign_stability :
    (∀ (m : Mesh) (e : Nat) (org dst x : Point),
      m.orig e = some org → m.orig (sym e) = some dst →
      (|crossP (subP x org) (subP dst org)| ≤ EPSILON →
        RightOf false x m e = false ∧ RightOf true x m e = false) ∧
      (EPSILON < crossP (subP x org) (subP dst org) →
        RightOf false x m e = true ∧ RightOf true x m e = false) ∧
      (crossP (subP x org) (subP dst org) < -EPSILON →
        RightOf false x m e = false ∧ RightOf true x m e = true)) ∧
    RightOf false (5, 5) segMesh 0 = false ∧
    RightOf false (5, -5) segMesh 0 = true := by
  have horg : segMesh.orig 0 = some ((0 : ℚ), (0 : ℚ)) := rfl
  have hdst : segMesh.orig (sym 0) = some ((10 : ℚ), (0 : ℚ)) := rfl
  refine ⟨?_, ?_, ?_⟩
  case refine_2 =>
    rw [rightOf_eval horg hdst]
    rw [show crossP (subP (5, 5) (0, 0)) (subP (10, 0) (0, 0)) = -50 by
      norm_num [crossP, subP]]
    rw [sign_of_lt_neg_eps (by norm_num [EPSILON])]
    norm_num
  case refine_3 =>
    rw [rightOf_eval horg hdst]
    rw [show crossP (subP (5, -5) (0, 0)) (subP (10, 0) (0, 0)) = 50 by
      norm_num [crossP, subP]]
    rw [sign_of_gt_eps (by norm_num [EPSILON])]
    norm_num
  intro m e org dst x horg hdst
  rw [rightOf_eval horg hdst, rightOf_eval horg hdst]
  refine ⟨?_, ?_, ?_⟩
  · intro h
    rw [sign_of_within_eps h]
    norm_num
  · intro h
    rw [sign_of_gt_eps h]
    norm_num
  · intro h
    rw [sign_of_lt_neg_eps h]
    norm_num

/-- C8: `OnEdge` and `RightOf` return false, rather than failing, when
either endpoint of the edge is unset; with both endpoints set, `OnEdge`
holds exactly when the point lies on the closed line segment from the
origin to the destination, the membership being decided by the delegated
segment test. -/
theorem onEdge_guards_and_membership :
    (∀ (x : Point) (m : Mesh) (e : Nat), m.orig e = none →
      OnEdge x m e = false ∧ ∀ fl, RightOf fl x m e = false) ∧
    (∀ (x : Point) (m : Mesh) (e : Nat), dest m e = none →
      OnEdge x m e = false ∧ ∀ fl, RightOf fl x m e = false) ∧
    (∀ (x : Point) (m : Mesh) (e : Nat) (org dst : Point),
      m.orig e = some org → m.orig (sym e) = some dst →
      (OnEdge x m e = true ↔ onClosedSegment x org dst)) := by
  refine ⟨?_, ?_, ?_⟩
  · intro x m e h
    constructor
    · unfold OnEdge
      rw [h]
    · intro fl
      unfold RightOf
      rw [h]
  · intro x m e h
    unfold dest at h
    constructor
    · unfold OnEdge
      cases hcase : m.orig e
      · rfl
      · rw [h]
    · intro fl
      unfold RightOf
      cases hcase : m.orig e
      · rfl
      · rw [h]
  · intro x m e org dst horg hdst
    unfold OnEdge
    rw [horg, hdst]
    exact isPointOnLineSegment_iff x org dst

/-- C9: each `BBox` loop iteration can only widen the box — the running
minima never increase and the running maxima never decrease — and on a
non-empty list the whole fold returns the coordinate-wise minima and
maxima of all the points, the first point seeding both corners; in
particular `BBox [(1,1),(5,2),(−3,9)] = (−3,1,5,9)`. -/
theorem bbox_min_max_fold :
    (∀ (bb : BoundingBox) (xy : ℚ × ℚ),
      (bboxStep bb xy).b0 ≤ bb.b0 ∧ (bboxStep bb xy).b1 ≤ bb.b1 ∧
      bb.b2 ≤ (bboxStep bb xy).b2 ∧ bb.b3 ≤ (bboxStep bb xy).b3) ∧
    (∀ (p : ℚ × ℚ) (rest : List (ℚ × ℚ)),
      BBox (p :: rest) =
        ⟨rest.foldl (fun acc q => min acc q.1) p.1,
         rest.foldl (fun acc q => min acc q.2) p.2,
         rest.foldl (fun acc q => max acc q.1) p.1,
         rest.foldl (fun acc q => max acc q.2) p.2⟩) ∧
    BBox [(1, 1), (5, 2), (-3, 9)] = ⟨-3, 1, 5, 9⟩ := by
  refine ⟨?_, ?_, by decide⟩
  · intro bb xy
    unfold bboxStep bboxStepX bboxStepY
    split_ifs <;>
      refine ⟨?_, ?_, ?_, ?_⟩ <;> simp_all <;> linarith
  · intro p rest
    show rest.foldl bboxStep ⟨p.1, p.2, p.1, p.2⟩ = _
    exact bbox_foldl rest ⟨p.1, p.2, p.1, p.2⟩ le_rfl le_rfl

/-! ## Concrete witnesses -/

/-- C1 witness: the two fresh edges of `pairMesh` satisfy the no-alias
hypotheses, and splicing them exchanges their successors while leaving
every origin in place. -/
theorem splice_four_way_reassignment_check :
    (Splice (some 0) (some 4) pairMesh).next 0 = pairMesh.next 4 ∧
    (Splice (some 0) (some 4) pairMesh).next 4 = pairMesh.next 0 ∧
    (Splice (some 0) (some 4) pairMesh).orig = pairMesh.orig := by
  have h := splice_four_way_reassignment pairMesh 0 4
    (by decide) (by decide) (by decide) (by decide)
  exact ⟨h.1, h.2.1, h.2.2.2.2.2.1⟩

/-- C2 witness: all four operations keep the rings of `pairMesh`
closed. -/
theorem ops_preserve_ring_closure_check :
    ringClosed (Splice (some 0) (some 4) pairMesh) 0 ∧
    ringClosed (Connect (some 0) (some 4) Winding.counterClockwise pairMesh).2 0 ∧
    ringClosed (Swap 0 pairMesh) 0 ∧
    ringClosed (Delete (some 0) pairMesh) 0 := by
  have h := ops_preserve_ring_closure wf_pairMesh 0 4 0 Winding.counterClockwise
    (by decide) (by decide) (by decide) (by decide) (by decide)
  exact ⟨h.1 0, h.2.1 0, h.2.2.1 0, h.2.2.2 0⟩

/-- C3 witness: the two singleton rings of `pairMesh` merge into one ring
of size two, and a second splice restores the mesh. -/
theorem splice_merge_then_split_check :
    isRingSize (Splice (some 0) (some 4) pairMesh) 0 2 ∧
    Splice (some 0) (some 4) (Splice (some 0) (some 4) pairMesh) = pairMesh := by
  have hp : isRingSize pairMesh 0 1 :=
    ⟨Nat.one_pos, rfl, fun j hj hj1 => absurd hj (by omega)⟩
  have hq : isRingSize pairMesh 4 1 :=
    ⟨Nat.one_pos, rfl, fun j hj hj1 => absurd hj (by omega)⟩
  have hdist : ¬sameRing pairMesh 0 4 := by
    rintro ⟨k, hk⟩
    rw [Function.iterate_fixed rfl k] at hk
    exact absurd hk (by decide)
  have h := splice_merge_then_split wf_pairMesh 0 4 1 1
    (by decide) (by decide) (by decide) hdist hp hq
  exact ⟨h.1, h.2.2.1⟩

/-- C4 witness: connecting the two edges of `pairMesh` (whose shared
vertex satisfies the adjacency precondition) yields the fresh edge 8,
reached in one left-face step from edge 0. -/
theorem connect_new_edge_check :
    (Connect (some 0) (some 4) Winding.counterClockwise pairMesh).1 = some 8 ∧
    (Connect (some 0) (some 4) Winding.counterClockwise pairMesh).2.orig 8 =
      dest pairMesh 0 ∧
    lnext (Connect (some 0) (some 4) Winding.counterClockwise pairMesh).2 0 = 8 := by
  have h := connect_new_edge 0 4 Winding.counterClockwise wf_pairMesh qwf_pairMesh
    (by decide) (by decide) (by decide) (by decide) rfl (by decide)
  exact ⟨h.1, h.2.1, h.2.2.2⟩

/-- C7 witness: at the point (5,5) the cross product against the scenario
edge is −50, far below the epsilon band, so `RightOf` is true exactly
under the flipped convention. -/
theorem rightOf_sign_stability_check :
    RightOf true (5, 5) segMesh 0 = true ∧
    RightOf false (5, 5) segMesh 0 = false := by
  have h := (rightOf_sign_stability.1 segMesh 0 (0, 0) (10, 0) (5, 5) rfl rfl).2.2
  have h2 := h (by
    rw [show crossP (subP ((5 : ℚ), (5 : ℚ)) (0, 0)) (subP (10, 0) (0, 0)) = -50 by
      norm_num [crossP, subP]]
    norm_num [EPSILON])
  exact ⟨h2.2, h2.1⟩

/-- C8 witness: slot 1 of `segMesh` has no origin, so `OnEdge` is false
there, and the midpoint (5,0) of the scenario edge is on the closed
segment, so `OnEdge` is true for it. -/
theorem onEdge_guards_check :
    OnEdge (1, 1) segMesh 1 = false ∧
    OnEdge (5, 0) segMesh 0 = true := by
  have h1 := (onEdge_guards_and_membership.1 (1, 1) segMesh 1 rfl).1
  have h3 := (onEdge_guards_and_membership.2.2 (5, 0) segMesh 0 (0, 0) (10, 0)
    rfl rfl).mpr ⟨1 / 2, by norm_num, by norm_num, by norm_num, by norm_num⟩
  exact ⟨h1, h3⟩
